import Mathlib

/-!
Verification of the lab-report text pipeline of this repository
(`server.js` and its sibling snapshots): the positioned-fragment
reassembler (`extractTextFromPdf`), the pattern-based noise filter
(`cleanLabText`), the positional noise filter (`removeRepeatingHeaders`
and `removeDuplicateLines`), the bounded range-classification rule
stated in the analyze endpoint's system prompt, and the analyze
endpoint's short-text guard.

Strings are modelled as `List Char`; `String` wrappers are provided at
the top level.  JavaScript's whitespace class `\s` is modelled on the
ASCII range.
-/

namespace LabPipe

/-- JS `\s` on the ASCII range: space, tab, newline, carriage return,
vertical tab, form feed. -/
def isWS (c : Char) : Bool :=
  c = ' ' || c = '\t' || c = '\n' || c = '\r' || c = '\x0b' || c = '\x0c'

/-- Case folding used for the `i` regex flag: ASCII letters plus the one
accented pair appearing in the repository's case-insensitive patterns. -/
def foldCase (c : Char) : Char :=
  if c = 'É' then 'é' else c.toLower

/-- Case-insensitive character comparison (JS `i` flag). -/
def eqCI (a b : Char) : Bool := foldCase a = foldCase b

/-- `pat` is a prefix of `l`, comparing case-insensitively. -/
def startsWithCI : List Char → List Char → Bool
  | [], _ => true
  | _ :: _, [] => false
  | p :: ps, c :: cs => eqCI p c && startsWithCI ps cs

/-- `pat` is a prefix of `l`, compared exactly. -/
def startsWithCS : List Char → List Char → Bool
  | [], _ => true
  | _ :: _, [] => false
  | p :: ps, c :: cs => (p = c : Bool) && startsWithCS ps cs

/-- Length of the longest run of characters satisfying `p` at the head. -/
def runLen (p : Char → Bool) (l : List Char) : Nat :=
  (l.takeWhile p).length

/-- Drop leading whitespace (one half of JS `String.prototype.trim`). -/
def dropW (l : List Char) : List Char := l.dropWhile (isWS ·)

/-- Drop trailing whitespace. -/
def dropTrail (l : List Char) : List Char := (dropW l.reverse).reverse

/-- JS `String.prototype.trim` on `List Char`. -/
def trimL (l : List Char) : List Char := dropTrail (dropW l)

/-- Worker for `collapseL`; `inWs` records whether the previous character
was whitespace already replaced by a single space. -/
def collapseGo : Bool → List Char → List Char
  | _, [] => []
  | inWs, c :: cs =>
    if isWS c then
      if inWs then collapseGo true cs else ' ' :: collapseGo true cs
    else
      c :: collapseGo false cs

/-- JS `replace(/\s+/g, ' ')`: every whitespace run becomes one space. -/
def collapseL (l : List Char) : List Char := collapseGo false l

/-- JS `split(sep)` for a single-character separator (`split('\n')`):
every separator occurrence splits, so `""` yields `[""]`. -/
def splitCh (sep : Char) : List Char → List (List Char)
  | [] => [[]]
  | c :: cs =>
    match splitCh sep cs with
    | [] => if c = sep then [[], []] else [[c]]
    | h :: t => if c = sep then [] :: h :: t else (c :: h) :: t

/-- `join` with a single-character separator. -/
def joinCh (sep : Char) : List (List Char) → List Char
  | [] => []
  | [x] => x
  | x :: y :: t => x ++ sep :: joinCh sep (y :: t)

/-- `join` with a multi-character separator (JS `Array.prototype.join`). -/
def joinSep (sep : List Char) : List (List Char) → List Char
  | [] => []
  | [x] => x
  | x :: y :: t => x ++ sep ++ joinSep sep (y :: t)

/-- Maximal whitespace-free runs of `l`, in order (helper for the JS
`split(/\s+/)` model). -/
def wordsL : List Char → List (List Char)
  | [] => []
  | c :: cs =>
    if isWS c then wordsL cs
    else
      match cs with
      | [] => [[c]]
      | d :: _ =>
        if isWS d then [c] :: wordsL cs
        else
          match wordsL cs with
          | [] => [[c]]
          | w :: ws => (c :: w) :: ws

/-- JS `split(/\s+/)`: separators are maximal whitespace runs; an empty
token appears at an end exactly when the string starts/ends with
whitespace, and the empty string yields `[""]`. -/
def splitWsL (l : List Char) : List (List Char) :=
  match l with
  | [] => [[]]
  | c :: _ =>
    (if isWS c then [([] : List Char)] else []) ++ wordsL l ++
      (if isWS (l.getLastD ' ') then [([] : List Char)] else [])

/-!  ## Pattern-based noise filter: `cleanLabText` (server.js lines 78-107)  -/

/-- The character substitution of `cleanLabText`:
`replace(/O/g, '0').replace(/l/g, '1')`. -/
def subChar (c : Char) : Char :=
  if c = 'O' then '0' else if c = 'l' then '1' else c

/-- The 13 anchored junk patterns of `cleanLabText`, as one test.
They are, in source order:
`/^Laboratoire de Biologie Médicale/i`, `/^LBM /i`, `/^SELAS /i`,
`/^Biologistes?/i`, `/^Page \d+/`, `/^Prélevé le /`, `/^Édité le /`,
`/^www\./i`, `/^Tél\s*:/i`, `/^Fax\s*:/i`, `/^\d{5}\s+[A-Z]/`,
`/^Les informations contenues dans ce document/`,
`/^Document confidentiel/`.
`Biologistes?` tests true as soon as `Biologiste` matches; `\s*:` is
deterministic because `:` is not whitespace. -/
def junkTest (l : List Char) : Bool :=
  startsWithCI "Laboratoire de Biologie Médicale".data l ||
  startsWithCI "LBM ".data l ||
  startsWithCI "SELAS ".data l ||
  startsWithCI "Biologiste".data l ||
  (startsWithCS "Page ".data l && ((l.drop 5).headD 'x').isDigit) ||
  startsWithCS "Prélevé le ".data l ||
  startsWithCS "Édité le ".data l ||
  startsWithCI "www.".data l ||
  (startsWithCI "Tél".data l && ((l.drop 3).dropWhile (isWS ·)).headD 'x' = ':') ||
  (startsWithCI "Fax".data l && ((l.drop 3).dropWhile (isWS ·)).headD 'x' = ':') ||
  ((l.take 5).all (·.isDigit) && 5 ≤ l.length &&
    (let r := l.drop 5
     isWS (r.headD 'x') && (let c := (r.dropWhile (isWS ·)).headD ' '
                            'A' ≤ c && c ≤ 'Z')) ) ||
  startsWithCS "Les informations contenues dans ce document".data l ||
  startsWithCS "Document confidentiel".data l

/-- The per-line cleanup of `cleanLabText`:
`line.replace(/O/g,'0').replace(/l/g,'1').replace(/\s+/g,' ').trim()`. -/
def fixLine (l : List Char) : List Char :=
  trimL (collapseL (l.map subChar))

/-- Lines of `cleanLabText` after trimming, the emptiness filter and the
junk filter, before the per-line cleanup. -/
def survivors (l : List Char) : List (List Char) :=
  (((splitCh '\n' l).map trimL).filter (fun t => 0 < t.length)).filter
    (fun t => !junkTest t)

/-- The line list produced by `cleanLabText` just before the final
`join('\n')`. -/
def cleanLabLinesL (l : List Char) : List (List Char) :=
  (survivors l).map fixLine

/-- `cleanLabText` (server.js lines 78-107) on `List Char`. -/
def cleanLabTextL (l : List Char) : List Char :=
  joinCh '\n' (cleanLabLinesL l)

/-- `cleanLabText` on `String`. -/
def cleanLabText (s : String) : String :=
  ⟨cleanLabTextL s.data⟩

/-- Output lines of `cleanLabText` on `String`. -/
def cleanLabLines (s : String) : List String :=
  (cleanLabLinesL s.data).map String.mk

/-!  ## Positioned-fragment reassembler: `extractTextFromPdf`
(server.js lines 28-76): a fold over the `pdfreader` event stream.  -/

/-- One `pdfreader` event: a page boundary (`item.page`) or a positioned
text fragment (`item.y`, `item.text`).  The `x` coordinate is unused by
the code and omitted. -/
inductive PdfEvent where
  | page : PdfEvent
  | frag (y : ℚ) (text : List Char) : PdfEvent

/-- The state of the parse callback: finished page strings, the current
page's line buffers, and the last quantized vertical position. -/
structure ReState where
  pages : List (List Char)
  currentPage : List (List Char)
  lastY : Option Int

/-- `Math.round(y * 10)`; JS `Math.round x = ⌊x + 0.5⌋`. -/
def quantY (y : ℚ) : Int :=
  Rat.floor (y * 10 + 1 / 2)

/-- Initial callback state. -/
def initState : ReState := ⟨[], [], none⟩

/-- Handling of a text fragment (server.js lines 50-63): push an empty
line marker when the quantized position jumps by more than 4, then
append the trimmed text to the last line if it is non-empty, else push
it as a new line. -/
def applyFrag (st : ReState) (y : ℚ) (txt : List Char) : ReState :=
  let q := quantY y
  let cp :=
    match st.lastY with
    | some p => if 4 < (q - p).natAbs then st.currentPage ++ [[]] else st.currentPage
    | none => st.currentPage
  let cp :=
    if cp.getLastD [] = [] then cp ++ [trimL txt]
    else cp.dropLast ++ [cp.getLastD [] ++ ' ' :: trimL txt]
  ⟨st.pages, cp, some q⟩

/-- Handling of a page boundary (server.js lines 43-48): flush the
current page (if non-empty) joined by newlines, and reset `lastY`. -/
def applyPage (st : ReState) : ReState :=
  ⟨st.pages ++ (if st.currentPage = [] then [] else [joinCh '\n' st.currentPage]),
   [], none⟩

/-- One event step of the parse callback. -/
def applyEvent (st : ReState) : PdfEvent → ReState
  | .page => applyPage st
  | .frag y t => applyFrag st y t

/-- The callback folded over the whole event stream. -/
def runEvents (es : List PdfEvent) : ReState :=
  es.foldl applyEvent initState

/-- The end-of-stream flush (server.js lines 37-40): the final page
string list. -/
def finalPages (es : List PdfEvent) : List (List Char) :=
  (applyPage (runEvents es)).pages

/-- `rawText` resolved by the promise: pages joined by blank lines. -/
def rawTextOf (es : List PdfEvent) : List Char :=
  joinSep "\n\n".data (finalPages es)

/-- JS `split(sep)` for a multi-character separator, with fuel (leftmost,
non-overlapping). -/
def splitSepF (sep : List Char) : Nat → List Char → List (List Char)
  | 0, l => [l]
  | fuel + 1, l =>
    if startsWithCS sep l && sep ≠ [] then
      [] :: splitSepF sep fuel (l.drop sep.length)
    else
      match l with
      | [] => [[]]
      | c :: cs =>
        match splitSepF sep fuel cs with
        | [] => [[c]]
        | h :: t => (c :: h) :: t

/-- JS `split(sep)` for a multi-character separator. -/
def splitSep (sep l : List Char) : List (List Char) :=
  splitSepF sep l.length l

/-- The page count reported by `extractTextFromPdf` (server.js line 71):
`rawText.split('\n\n').filter(p => p.trim()).length || 1`. -/
def reportedPages (es : List PdfEvent) : Nat :=
  let n := ((splitSep "\n\n".data (rawTextOf es)).filter
    (fun p => trimL p ≠ ([] : List Char))).length
  if n = 0 then 1 else n

/-- The `text` field returned by `extractTextFromPdf` (server.js
line 70): `cleanLabText(rawText).trim()`. -/
def extractedText (es : List PdfEvent) : List Char :=
  trimL (cleanLabTextL (rawTextOf es))

/-- Whether the next fragment opens a new line buffer instead of being
appended to the current one. -/
def startsNewLine (st : ReState) (y : ℚ) (txt : List Char) : Prop :=
  st.currentPage.length < (applyFrag st y txt).currentPage.length

instance (st : ReState) (y : ℚ) (txt : List Char) :
    Decidable (startsNewLine st y txt) := by
  unfold startsNewLine; infer_instance

/-!  ## Positional noise filter (`part_000` lines 60-140):
`removeRepeatingHeaders` and `removeDuplicateLines`.  -/

/-- The header-length loop of `removeRepeatingHeaders` (lines 70-77):
`headerLength = i + 1` while tokens agree, `break` at the first
mismatch — the longest common prefix length of the two token lists. -/
def headerLenL : List (List Char) → List (List Char) → Nat
  | x :: xs, y :: ys => if x = y then headerLenL xs ys + 1 else 0
  | _, _ => 0

/-- Header length computed by `removeRepeatingHeaders` from the first
100 tokens of the first two pages. -/
def headerOf (p0 p1 : List Char) : Nat :=
  headerLenL ((splitWsL p0).take 100) ((splitWsL p1).take 100)

/-- Token lists of the `cleanedPages` map of `removeRepeatingHeaders`
(lines 83-92): each page is tokenized; pages after the first lose their
first `headerLength` tokens when the common prefix reaches 10. -/
def stage1Tokens : List (List Char) → List (List (List Char))
  | [] => []
  | p0 :: rest =>
    let hl :=
      match rest with
      | [] => 0
      | p1 :: _ => headerOf p0 p1
    splitWsL p0 ::
      rest.map (fun p =>
        if 10 ≤ hl then (splitWsL p).drop hl else splitWsL p)

/-- The `cleanedPages` array of `removeRepeatingHeaders`: tokens of each
page re-joined by single spaces (`words.join(' ')`). -/
def stage1 (pages : List (List Char)) : List (List Char) :=
  (stage1Tokens pages).map (joinCh ' ')

/-- Scan-and-replace with fuel: JS global `replace`, where `m` returns
the match length at the current position (all matchers used here only
return positive lengths). -/
def replaceScanF (m : List Char → Option Nat) (repl : List Char) :
    Nat → List Char → List Char
  | 0, l => l
  | fuel + 1, l =>
    match l with
    | [] => []
    | c :: cs =>
      match m (c :: cs) with
      | some (n + 1) => repl ++ replaceScanF m repl fuel (cs.drop n)
      | _ => c :: replaceScanF m repl fuel cs

/-- JS global `replace(pattern, repl)` driven by a match-length
function. -/
def replaceScan (m : List Char → Option Nat) (repl l : List Char) :
    List Char := replaceScanF m repl l.length l

/-- ASCII letter (what `[A-Z]` matches under the `i` flag). -/
def isAZci (c : Char) : Bool :=
  ('A' ≤ c && c ≤ 'Z') || ('a' ≤ c && c ≤ 'z')

/-- Matcher for a case-insensitive literal. -/
def mLitCI (pat : List Char) (l : List Char) : Option Nat :=
  if startsWithCI pat l then some pat.length else none

/-- Matcher for `/LBM [A-Z\s]+/gi` and `/SELAS [A-Z\s]+/gi`:
a literal followed by at least one letter-or-whitespace. -/
def mLitRun (pat : List Char) (l : List Char) : Option Nat :=
  if startsWithCI pat l then
    let n := runLen (fun c => isAZci c || isWS c) (l.drop pat.length)
    if 0 < n then some (pat.length + n) else none
  else none

/-- Matcher for `/\d{5}\s+[A-Z\-]+/gi`: five digits, whitespace, then
letters or dashes (deterministic: the classes are disjoint). -/
def mPostal (l : List Char) : Option Nat :=
  if (l.take 5).all (·.isDigit) && 5 ≤ l.length then
    let r := l.drop 5
    let w := runLen (isWS ·) r
    let t := runLen (fun c => isAZci c || c = '-') (r.drop w)
    if 0 < w && 0 < t then some (5 + w + t) else none
  else none

/-- Matcher for `/Tél\s*:\s*[\d\.\s]+/gi` and its `Fax` twin.  Since the
class `[\d\.\s]` contains `\s`, `\s*[\d\.\s]+` is one maximal run of
digits, dots and whitespace of positive length. -/
def mPhone (pat : List Char) (l : List Char) : Option Nat :=
  if startsWithCI pat l then
    let r := l.drop pat.length
    let w := runLen (isWS ·) r
    if (r.drop w).headD 'x' = ':' then
      let u := runLen (fun c => c.isDigit || c = '.' || isWS c)
        (r.drop (w + 1))
      if 0 < u then some (pat.length + w + 1 + u) else none
    else none
  else none

/-- Matcher for `/www\.[a-z]+\.fr/gi`. -/
def mWww (l : List Char) : Option Nat :=
  if startsWithCI "www.".data l then
    let n := runLen isAZci (l.drop 4)
    if 0 < n && startsWithCI ".fr".data (l.drop (4 + n)) then
      some (4 + n + 3)
    else none
  else none

/-- Matcher for `/Page \d+ sur \d+/gi` and `/Page \d+ \/ \d+/gi`,
parametrized by the middle literal. -/
def mPageOf (mid : List Char) (l : List Char) : Option Nat :=
  if startsWithCI "Page ".data l then
    let d1 := runLen (·.isDigit) (l.drop 5)
    if 0 < d1 && startsWithCI mid (l.drop (5 + d1)) then
      let d2 := runLen (·.isDigit) (l.drop (5 + d1 + mid.length))
      if 0 < d2 then some (5 + d1 + mid.length + d2) else none
    else none
  else none

/-- Matcher for `/Prélevé le \d{2}\/\d{2}\/\d{2}/gi`. -/
def mPreleve (l : List Char) : Option Nat :=
  if startsWithCI "Prélevé le ".data l then
    let r := l.drop 11
    let ok := (r.take 2).all (·.isDigit) && (r.drop 2).headD 'x' = '/' &&
      ((r.drop 3).take 2).all (·.isDigit) && (r.drop 5).headD 'x' = '/' &&
      ((r.drop 6).take 2).all (·.isDigit) && 8 ≤ r.length
    if ok then some 19 else none
  else none

/-- Test for a space followed by four digits at the head. -/
def dateTail (seg : List Char) : Bool :=
  seg.headD 'x' = ' ' && ((seg.drop 1).take 4).all (·.isDigit) &&
    5 ≤ seg.length

/-- Matcher for `/Édité le .+ \d{4}/gi`: after the literal, `.+` is
greedy, so the match extends to the rightmost ` \d{4}` in the rest of
the line (`.` does not cross line breaks). -/
def mEdite (l : List Char) : Option Nat :=
  if startsWithCI "Édité le ".data l then
    let seg := (l.drop 9).takeWhile (fun c => c ≠ '\n' && c ≠ '\r')
    match (List.range seg.length).reverse.find?
        (fun j => 1 ≤ j && dateTail (seg.drop j)) with
    | some j => some (9 + j + 5)
    | none => none
  else none

/-- Matcher for `/\n{3,}/g`. -/
def mNl3 (l : List Char) : Option Nat :=
  let n := runLen (· = '\n') l
  if 3 ≤ n then some n else none

/-- Matcher for `/\s{3,}/g`. -/
def mWs3 (l : List Char) : Option Nat :=
  let n := runLen (isWS ·) l
  if 3 ≤ n then some n else none

/-- Matcher for the literal `/===PAGE_BREAK===/g`. -/
def mMarker (l : List Char) : Option Nat :=
  if startsWithCS "===PAGE_BREAK===".data l then some 16 else none

/-- The `headerPatterns` removals of `removeDuplicateLines`
(`part_000` lines 109-130), applied in source order with empty
replacement. -/
def removePatterns (l : List Char) : List Char :=
  let steps : List (List Char → Option Nat) :=
    [ mLitCI "Laboratoire de Biologie Médicale".data,
      mLitRun "LBM ".data,
      mPostal,
      mPhone "Tél".data,
      mPhone "Fax".data,
      mWww,
      mLitRun "SELAS ".data,
      mLitCI "Biologistes co-responsables".data,
      mPageOf " sur ".data,
      mPageOf " / ".data,
      mPreleve,
      mEdite,
      mLitCI "Les informations contenues dans ce document".data ]
  steps.foldl (fun acc m => replaceScan m [] acc) l

/-- `removeDuplicateLines` (`part_000` lines 101-140). -/
def removeDuplicateLines (pagesText : List (List Char)) : List Char :=
  if pagesText.length < 2 then joinSep "\n\n".data pagesText
  else
    let allPages := joinSep "\n\n===PAGE_BREAK===\n\n".data pagesText
    let cleaned := removePatterns allPages
    let cleaned := replaceScan mNl3 "\n\n".data cleaned
    let cleaned := replaceScan mWs3 " ".data cleaned
    let cleaned := replaceScan mMarker "\n\n".data cleaned
    trimL cleaned

/-- `removeRepeatingHeaders` (`part_000` lines 60-98). -/
def removeRepeatingHeaders (pagesText : List (List Char)) : List Char :=
  if pagesText.length < 2 then joinSep "\n\n".data pagesText
  else removeDuplicateLines (stage1 pagesText)

/-- `removeRepeatingHeaders` on `String` values. -/
def removeRepeatingHeadersS (pages : List String) : String :=
  ⟨removeRepeatingHeaders (pages.map String.data)⟩

/-!  ## Analyze endpoint guard (server.js lines 132-152) and the range
classification rule of its system prompt (lines 894-911).  -/

/-- Outcome of the `/api/analyze` handler before any external call. -/
inductive AnalyzeOutcome where
  | clientError (status : Nat) (msg : String)
  | proceed (textInput : String)
deriving DecidableEq

/-- The input-validation prefix of the `/api/analyze` handler
(server.js lines 134-152): with an uploaded file, the extracted text
must be non-empty and at least 50 characters long, else HTTP 400. -/
def analyzeGate (file : Option String) (bodyText : Option String) :
    AnalyzeOutcome :=
  match file with
  | some extracted =>
    if extracted = "" || extracted.length < 50 then
      .clientError 400 "Extracted text too short or empty"
    else .proceed extracted
  | none =>
    match bodyText with
    | some t => if t = "" then .clientError 400 "No text to analyze" else .proceed t
    | none => .clientError 400 "No text to analyze"

/-- Classification status of a lab record. -/
inductive RangeStatus where
  | inRange
  | outOfRange
deriving DecidableEq

/-- The BOUNDED-range classification rule stated by the analyze
endpoint's system prompt (server.js lines 897-899): a value is out of
range if it is below the lower limit or above the upper limit,
otherwise in range.  The rule exists in the repository only as these
prompt instructions; the definition transcribes them. -/
def classifyBounded (lower upper v : ℚ) : RangeStatus :=
  if v < lower then .outOfRange
  else if upper < v then .outOfRange
  else .inRange

/-!  ## Auxiliary predicates used by the statements.  -/

/-- The first character, if any, is not whitespace. -/
def headOkB : List Char → Bool
  | [] => true
  | c :: _ => !isWS c

/-- The last character, if any, is not whitespace. -/
def lastOkB (l : List Char) : Bool := headOkB l.reverse

/-- Adjacent-pair constraint between a character and the head of a
list. -/
def pairOk (a : Char) : List Char → Bool
  | [] => true
  | b :: _ => !(isWS a && isWS b)

/-- No two adjacent whitespace characters. -/
def okSpacing : List Char → Bool
  | [] => true
  | [_] => true
  | a :: b :: t => !(isWS a && isWS b) && okSpacing (b :: t)

/-- Every whitespace character is a plain space. -/
def allSp (l : List Char) : Bool := l.all (fun c => !isWS c || c = ' ')

/-- Concrete three-page document used in the repeated-header
statements: ten shared header tokens, then diverging content. -/
def pageA : List Char := "h1 h2 h3 h4 h5 h6 h7 h8 h9 h10 X".data

/-- Second page of the concrete document, sharing ten tokens with
`pageA`. -/
def pageB : List Char := "h1 h2 h3 h4 h5 h6 h7 h8 h9 h10 Y".data

/-- Third page of the concrete document, sharing nothing with
`pageA`. -/
def pageC : List Char := "b c".data

/-- Recognizer for page-boundary events. -/
def isPageEvent : PdfEvent → Bool
  | .page => true
  | .frag _ _ => false

/-!  ## Lemmas about the whitespace machinery.  -/

theorem okSpacing_cons (a : Char) (t : List Char) :
    okSpacing (a :: t) = (pairOk a t && okSpacing t) := by
  cases t with
  | nil => rfl
  | cons b t => rfl

theorem okSpacing_tail {a : Char} {t : List Char}
    (h : okSpacing (a :: t) = true) : okSpacing t = true := by
  rw [okSpacing_cons, Bool.and_eq_true] at h
  exact h.2

theorem mem_collapseGo {c : Char} :
    ∀ (b : Bool) (l : List Char), c ∈ collapseGo b l → c = ' ' ∨ c ∈ l := by
  intro b l
  induction l generalizing b with
  | nil => intro h; exact absurd h (List.not_mem_nil c)
  | cons a t ih =>
    intro h
    by_cases ha : isWS a = true
    · simp only [collapseGo, ha, if_true] at h
      cases b with
      | true =>
        rcases ih true h with h' | h'
        · exact Or.inl h'
        · exact Or.inr (List.mem_cons_of_mem a h')
      | false =>
        rcases List.mem_cons.mp h with h' | h'
        · exact Or.inl h'
        · rcases ih true h' with h'' | h''
          · exact Or.inl h''
          · exact Or.inr (List.mem_cons_of_mem a h'')
    · simp only [collapseGo, ha, if_false, Bool.false_eq_true] at h
      rcases List.mem_cons.mp h with h' | h'
      · exact Or.inr (h' ▸ List.mem_cons_self a t)
      · rcases ih false h' with h'' | h''
        · exact Or.inl h''
        · exact Or.inr (List.mem_cons_of_mem a h'')

theorem ws_mem_collapseGo {c : Char} :
    ∀ (b : Bool) (l : List Char), c ∈ collapseGo b l → isWS c = true → c = ' ' := by
  intro b l
  induction l generalizing b with
  | nil => intro h; exact absurd h (List.not_mem_nil c)
  | cons a t ih =>
    intro h hc
    by_cases ha : isWS a = true
    · simp only [collapseGo, ha, if_true] at h
      cases b with
      | true => exact ih true h hc
      | false =>
        rcases List.mem_cons.mp h with h' | h'
        · exact h'
        · exact ih true h' hc
    · simp only [collapseGo, ha, if_false, Bool.false_eq_true] at h
      rcases List.mem_cons.mp h with h' | h'
      · rw [h'] at hc; exact absurd hc (by simpa using ha)
      · exact ih false h' hc

theorem nonws_mem_collapseGo {c : Char} (hc : isWS c = false) :
    ∀ (b : Bool) (l : List Char), c ∈ l → c ∈ collapseGo b l := by
  intro b l
  induction l generalizing b with
  | nil => intro h; exact absurd h (List.not_mem_nil c)
  | cons a t ih =>
    intro h
    rcases List.mem_cons.mp h with h' | h'
    · subst h'
      simp only [collapseGo, hc, if_false, Bool.false_eq_true]
      exact List.mem_cons_self c _
    · by_cases ha : isWS a = true
      · simp only [collapseGo, ha, if_true]
        cases b with
        | true => exact ih true h'
        | false => exact List.mem_cons_of_mem ' ' (ih true h')
      · simp only [collapseGo, ha, if_false, Bool.false_eq_true]
        exact List.mem_cons_of_mem a (ih false h')

theorem collapseGo_cons_ws {a : Char} {t : List Char} (ha : isWS a = true) :
    collapseGo false (a :: t) = ' ' :: collapseGo true t ∧
      collapseGo true (a :: t) = collapseGo true t := by
  constructor <;> simp [collapseGo, ha]

theorem collapseGo_cons_nonws {a : Char} {t : List Char} (ha : isWS a = false) :
    ∀ b : Bool, collapseGo b (a :: t) = a :: collapseGo false t := by
  intro b; cases b <;> simp [collapseGo, ha]

theorem collapseGo_ok :
    ∀ l : List Char, okSpacing (collapseGo false l) = true ∧
      okSpacing (collapseGo true l) = true ∧
      headOkB (collapseGo true l) = true := by
  intro l
  induction l with
  | nil => exact ⟨rfl, rfl, rfl⟩
  | cons a t ih =>
    by_cases ha : isWS a = true
    · obtain ⟨e1, e2⟩ := collapseGo_cons_ws (t := t) ha
      refine ⟨?_, e2 ▸ ih.2.1, e2 ▸ ih.2.2⟩
      rw [e1, okSpacing_cons, Bool.and_eq_true]
      refine ⟨?_, ih.2.1⟩
      cases hcol : collapseGo true t with
      | nil => rfl
      | cons d r =>
        have hd := ih.2.2
        rw [hcol] at hd
        simp only [headOkB, Bool.not_eq_true'] at hd
        simp [pairOk, hd]
    · have ha' : isWS a = false := by simpa using ha
      have e := collapseGo_cons_nonws (t := t) ha'
      have hfalse : okSpacing (a :: collapseGo false t) = true := by
        rw [okSpacing_cons, Bool.and_eq_true]
        refine ⟨?_, ih.1⟩
        cases collapseGo false t with
        | nil => rfl
        | cons d r => simp [pairOk, ha']
      refine ⟨?_, ?_, ?_⟩
      · rw [e false]; exact hfalse
      · rw [e true]; exact hfalse
      · rw [e true]; simp [headOkB, ha']

theorem headOkB_dropW (l : List Char) : headOkB (dropW l) = true := by
  induction l with
  | nil => rfl
  | cons a t ih =>
    by_cases ha : isWS a = true
    · simpa [dropW, List.dropWhile_cons, ha] using ih
    · simp [dropW, List.dropWhile_cons, ha, headOkB]

theorem dropW_of_headOk {l : List Char} (h : headOkB l = true) : dropW l = l := by
  cases l with
  | nil => rfl
  | cons a t =>
    simp only [headOkB, Bool.not_eq_true'] at h
    simp [dropW, List.dropWhile_cons, h]

theorem dropTrail_append (l : List Char) :
    ∃ t : List Char, l = dropTrail l ++ t ∧ ∀ c ∈ t, isWS c = true := by
  refine ⟨(l.reverse.takeWhile (isWS ·)).reverse, ?_, ?_⟩
  · show l = (List.dropWhile (fun c => isWS c) l.reverse).reverse ++
      (List.takeWhile (fun c => isWS c) l.reverse).reverse
    rw [← List.reverse_append, List.takeWhile_append_dropWhile,
      List.reverse_reverse]
  · intro c hc
    rw [List.mem_reverse] at hc
    exact List.mem_takeWhile_imp hc

theorem headOkB_dropTrail {l : List Char} (h : headOkB l = true) :
    headOkB (dropTrail l) = true := by
  obtain ⟨t, hl, -⟩ := dropTrail_append l
  cases hd : dropTrail l with
  | nil => rfl
  | cons d r =>
    rw [hd] at hl
    cases l with
    | nil => simp at hl
    | cons a s =>
      rw [List.cons_append] at hl
      injection hl with h1 _
      simp only [headOkB] at h ⊢
      rw [← h1]; exact h

theorem headOkB_trimL (l : List Char) : headOkB (trimL l) = true :=
  headOkB_dropTrail (headOkB_dropW l)

theorem lastOkB_trimL (l : List Char) : lastOkB (trimL l) = true := by
  unfold lastOkB trimL dropTrail
  rw [List.reverse_reverse]
  exact headOkB_dropW _

theorem trimL_of_ok {l : List Char} (h1 : headOkB l = true)
    (h2 : lastOkB l = true) : trimL l = l := by
  unfold trimL dropTrail
  rw [dropW_of_headOk h1, dropW_of_headOk h2, List.reverse_reverse]

theorem trimL_idem (l : List Char) : trimL (trimL l) = trimL l :=
  trimL_of_ok (headOkB_trimL l) (lastOkB_trimL l)

theorem mem_dropW {c : Char} {l : List Char} (h : c ∈ dropW l) : c ∈ l := by
  have h2 : c ∈ l.takeWhile (isWS ·) ++ l.dropWhile (isWS ·) :=
    List.mem_append_right _ h
  rwa [List.takeWhile_append_dropWhile] at h2

theorem mem_trimL {c : Char} {l : List Char} (h : c ∈ trimL l) : c ∈ l := by
  apply mem_dropW (l := l)
  obtain ⟨t, hl, -⟩ := dropTrail_append (dropW l)
  rw [hl]
  exact List.mem_append_left _ h

theorem nonws_mem_dropW {c : Char} {l : List Char} (hc : isWS c = false)
    (h : c ∈ l) : c ∈ dropW l := by
  rw [← List.takeWhile_append_dropWhile (p := (isWS ·)) (l := l)] at h
  rcases List.mem_append.mp h with h' | h'
  · exact absurd (List.mem_takeWhile_imp h') (by simp [hc])
  · exact h'

theorem nonws_mem_trimL {c : Char} {l : List Char} (hc : isWS c = false)
    (h : c ∈ l) : c ∈ trimL l := by
  have h1 : c ∈ dropW l := nonws_mem_dropW hc h
  obtain ⟨t, hl, ht⟩ := dropTrail_append (dropW l)
  rw [hl] at h1
  rcases List.mem_append.mp h1 with h' | h'
  · exact h'
  · exact absurd (ht c h') (by simp [hc])

theorem okSpacing_append {l m : List Char}
    (h : okSpacing (l ++ m) = true) : okSpacing l = true ∧ okSpacing m = true := by
  induction l with
  | nil => exact ⟨rfl, h⟩
  | cons a l ih =>
    rw [List.cons_append, okSpacing_cons, Bool.and_eq_true] at h
    have hl := ih h.2
    refine ⟨?_, hl.2⟩
    rw [okSpacing_cons, Bool.and_eq_true]
    refine ⟨?_, hl.1⟩
    cases l with
    | nil => rfl
    | cons b t =>
      simpa [pairOk] using h.1

theorem okSpacing_dropW {l : List Char} (h : okSpacing l = true) :
    okSpacing (dropW l) = true := by
  rw [← List.takeWhile_append_dropWhile (p := (isWS ·)) (l := l)] at h
  exact (okSpacing_append h).2

theorem okSpacing_dropTrail {l : List Char} (h : okSpacing l = true) :
    okSpacing (dropTrail l) = true := by
  obtain ⟨t, hl, -⟩ := dropTrail_append l
  rw [hl] at h
  exact (okSpacing_append h).1

theorem okSpacing_trimL {l : List Char} (h : okSpacing l = true) :
    okSpacing (trimL l) = true :=
  okSpacing_dropTrail (okSpacing_dropW h)

/-!  ## Lemmas about the per-line cleanup `fixLine`.  -/

theorem subChar_ne (a : Char) : subChar a ≠ 'O' ∧ subChar a ≠ 'l' := by
  unfold subChar
  split_ifs with h1 h2 <;> simp_all

theorem isWS_subChar (a : Char) : isWS (subChar a) = isWS a := by
  unfold subChar
  split_ifs with h1 h2
  · subst h1; decide
  · subst h2; decide
  · rfl

theorem map_subChar_id {l : List Char}
    (h : ∀ c ∈ l, c ≠ 'O' ∧ c ≠ 'l') : l.map subChar = l := by
  have heq : l.map subChar = l.map id := by
    apply List.map_congr_left
    intro a ha
    have := h a ha
    show subChar a = a
    unfold subChar
    split_ifs with h1 h2
    · exact absurd h1 this.1
    · exact absurd h2 this.2
    · rfl
  rw [heq, List.map_id]

theorem allSp_of_mem {l : List Char}
    (h : ∀ c ∈ l, isWS c = true → c = ' ') : allSp l = true := by
  rw [allSp, List.all_eq_true]
  intro c hc
  by_cases hw : isWS c = true
  · have := h c hc hw
    simp [this]
  · have hw' : isWS c = false := by revert hw; cases isWS c <;> simp
    simp [hw']

theorem allSp_mem {l : List Char} (h : allSp l = true) :
    ∀ c ∈ l, isWS c = true → c = ' ' := by
  rw [allSp, List.all_eq_true] at h
  intro c hc hw
  have := h c hc
  rw [hw] at this
  simpa using this

theorem collapseGo_fix :
    ∀ l : List Char, (okSpacing l = true → allSp l = true →
        collapseGo false l = l) ∧
      (okSpacing l = true → allSp l = true → headOkB l = true →
        collapseGo true l = l) := by
  intro l
  induction l with
  | nil => exact ⟨fun _ _ => rfl, fun _ _ _ => rfl⟩
  | cons a t ih =>
    have tail_ok : okSpacing (a :: t) = true → okSpacing t = true :=
      fun h => okSpacing_tail h
    have tail_sp : allSp (a :: t) = true → allSp t = true := by
      intro h
      exact allSp_of_mem fun c hc => allSp_mem h c (List.mem_cons_of_mem a hc)
    constructor
    · intro hok hsp
      by_cases ha : isWS a = true
      · have haSp : a = ' ' := allSp_mem hsp a (List.mem_cons_self a t) ha
        rw [(collapseGo_cons_ws ha).1]
        have hhead : headOkB t = true := by
          cases t with
          | nil => rfl
          | cons b r =>
            rw [okSpacing_cons, Bool.and_eq_true] at hok
            have := hok.1
            simp only [pairOk, ha, Bool.true_and, Bool.not_eq_true'] at this
            simp [headOkB, this]
        rw [ih.2 (tail_ok hok) (tail_sp hsp) hhead, haSp]
      · have ha' : isWS a = false := by simpa using ha
        rw [collapseGo_cons_nonws ha' false,
          ih.1 (tail_ok hok) (tail_sp hsp)]
    · intro hok hsp hhead
      have ha' : isWS a = false := by
        simpa [headOkB, Bool.not_eq_true'] using hhead
      rw [collapseGo_cons_nonws ha' true, ih.1 (tail_ok hok) (tail_sp hsp)]

theorem fixLine_ne_nil {l : List Char} (hh : headOkB l = true)
    (hne : l ≠ []) : fixLine l ≠ [] := by
  cases l with
  | nil => exact absurd rfl hne
  | cons a t =>
    simp only [headOkB, Bool.not_eq_true'] at hh
    have h1 : subChar a ∈ (a :: t).map subChar := by
      rw [List.map_cons]; exact List.mem_cons_self _ _
    have hws : isWS (subChar a) = false := by rw [isWS_subChar]; exact hh
    have h2 : subChar a ∈ collapseL ((a :: t).map subChar) :=
      nonws_mem_collapseGo hws false _ h1
    have h3 : subChar a ∈ fixLine (a :: t) := nonws_mem_trimL hws h2
    intro hcon
    rw [hcon] at h3
    exact List.not_mem_nil _ h3

theorem fixLine_no_sub (l : List Char) :
    ∀ c ∈ fixLine l, c ≠ 'O' ∧ c ≠ 'l' := by
  intro c hc
  have h1 : c ∈ collapseL (l.map subChar) := mem_trimL hc
  rcases mem_collapseGo false _ h1 with h2 | h2
  · subst h2; exact ⟨by decide, by decide⟩
  · rcases List.mem_map.mp h2 with ⟨a, -, ha⟩
    rw [← ha]; exact subChar_ne a

theorem fixLine_okSpacing (l : List Char) : okSpacing (fixLine l) = true :=
  okSpacing_trimL (collapseGo_ok (l.map subChar)).1

theorem fixLine_allSp (l : List Char) : allSp (fixLine l) = true := by
  apply allSp_of_mem
  intro c hc hw
  exact ws_mem_collapseGo false _ (mem_trimL hc) hw

theorem fixLine_trimmed (l : List Char) : trimL (fixLine l) = fixLine l :=
  trimL_idem _

theorem fixLine_no_newline (l : List Char) : '\n' ∉ fixLine l := by
  intro h
  have := allSp_mem (fixLine_allSp l) '\n' h (by decide)
  exact absurd this (by decide)

theorem fixLine_fix {l : List Char} (hh : headOkB l = true)
    (hl : lastOkB l = true) (hok : okSpacing l = true)
    (hsp : allSp l = true) (hns : ∀ c ∈ l, c ≠ 'O' ∧ c ≠ 'l') :
    fixLine l = l := by
  unfold fixLine collapseL
  rw [map_subChar_id hns, (collapseGo_fix l).1 hok hsp, trimL_of_ok hh hl]

/-!  ## Structure of the `cleanLabText` output.  -/

theorem mem_cleanLabLinesL {d m : List Char} (h : m ∈ cleanLabLinesL d) :
    ∃ t, t ∈ survivors d ∧ m = fixLine t ∧ headOkB t = true ∧ t ≠ [] ∧
      junkTest t = false := by
  rcases List.mem_map.mp h with ⟨t, ht, hm⟩
  have hs := ht
  unfold survivors at ht
  rcases List.mem_filter.mp ht with ⟨ht1, hjunk⟩
  rcases List.mem_filter.mp ht1 with ⟨ht2, hlen⟩
  rcases List.mem_map.mp ht2 with ⟨t0, -, htrim⟩
  refine ⟨t, hs, hm.symm, ?_, ?_, ?_⟩
  · rw [← htrim]; exact headOkB_trimL t0
  · intro hnil
    rw [hnil] at hlen
    exact absurd (of_decide_eq_true hlen) (by simp)
  · simpa using hjunk

theorem cleanLab_line_facts {d m : List Char} (h : m ∈ cleanLabLinesL d) :
    m ≠ [] ∧ trimL m = m ∧ okSpacing m = true ∧ allSp m = true ∧
      (∀ c ∈ m, c ≠ 'O' ∧ c ≠ 'l') ∧ '\n' ∉ m := by
  rcases mem_cleanLabLinesL h with ⟨t, -, hm, hhead, hne, -⟩
  subst hm
  exact ⟨fixLine_ne_nil hhead hne, fixLine_trimmed t, fixLine_okSpacing t,
    fixLine_allSp t, fixLine_no_sub t, fixLine_no_newline t⟩

/-!  ## Split/join round trip on newline-free lines.  -/

theorem splitCh_cons (sep c : Char) (cs : List Char) :
    splitCh sep (c :: cs) =
      match splitCh sep cs with
      | [] => if c = sep then [[], []] else [[c]]
      | h :: t => if c = sep then [] :: h :: t else (c :: h) :: t := rfl

theorem splitCh_ne_nil (sep : Char) (l : List Char) : splitCh sep l ≠ [] := by
  cases l with
  | nil => simp [splitCh]
  | cons c cs =>
    rw [splitCh_cons]
    cases splitCh sep cs with
    | nil => split_ifs <;> simp
    | cons h t => split_ifs <;> simp

theorem splitCh_no_sep {sep : Char} {l : List Char} (h : sep ∉ l) :
    splitCh sep l = [l] := by
  induction l with
  | nil => rfl
  | cons c cs ih =>
    have hc : ¬c = sep := fun hcs => h (hcs ▸ List.mem_cons_self c cs)
    have hcs : sep ∉ cs := fun hmem => h (List.mem_cons_of_mem c hmem)
    rw [splitCh_cons, ih hcs]
    simp [hc]

theorem splitCh_append_sep {sep : Char} {x r : List Char} (h : sep ∉ x) :
    splitCh sep (x ++ sep :: r) = x :: splitCh sep r := by
  induction x with
  | nil =>
    show splitCh sep (sep :: r) = [] :: splitCh sep r
    rw [splitCh_cons]
    cases hs : splitCh sep r with
    | nil => exact absurd hs (splitCh_ne_nil sep r)
    | cons a t => simp
  | cons c x ih =>
    have hc : ¬c = sep := fun hcs => h (hcs ▸ List.mem_cons_self c x)
    have hx : sep ∉ x := fun hmem => h (List.mem_cons_of_mem c hmem)
    show splitCh sep (c :: (x ++ sep :: r)) = (c :: x) :: splitCh sep r
    rw [splitCh_cons, ih hx]
    simp [hc]

theorem splitCh_joinCh {M : List (List Char)} (hM : M ≠ [])
    (h : ∀ m ∈ M, '\n' ∉ m) : splitCh '\n' (joinCh '\n' M) = M := by
  induction M with
  | nil => exact absurd rfl hM
  | cons x t ih =>
    cases t with
    | nil =>
      show splitCh '\n' x = [x]
      exact splitCh_no_sep (h x (List.mem_cons_self x []))
    | cons y r =>
      show splitCh '\n' (x ++ '\n' :: joinCh '\n' (y :: r)) = x :: y :: r
      rw [splitCh_append_sep (h x (List.mem_cons_self x _))]
      rw [ih (by simp) (fun m hm => h m (List.mem_cons_of_mem x hm))]

/-- A line list consisting of non-empty, trimmed, well-spaced,
substitution-free, junk-free lines is reproduced verbatim by a second
pass of `cleanLabText`. -/
theorem cleanLabLinesL_self {M : List (List Char)}
    (hfacts : ∀ m ∈ M, m ≠ [] ∧ trimL m = m ∧ okSpacing m = true ∧
      allSp m = true ∧ (∀ c ∈ m, c ≠ 'O' ∧ c ≠ 'l') ∧ '\n' ∉ m)
    (hj : ∀ m ∈ M, junkTest m = false) (hnil : M ≠ []) :
    cleanLabLinesL (joinCh '\n' M) = M := by
  unfold cleanLabLinesL survivors
  rw [splitCh_joinCh hnil (fun m hm => (hfacts m hm).2.2.2.2.2)]
  have h1 : M.map trimL = M := by
    have := List.map_congr_left (f := trimL) (g := id)
      (l := M) (fun m hm => (hfacts m hm).2.1)
    rwa [List.map_id] at this
  rw [h1]
  have h2 : M.filter (fun t => 0 < t.length) = M :=
    List.filter_eq_self.mpr (fun m hm =>
      decide_eq_true (List.length_pos.mpr (hfacts m hm).1))
  rw [h2]
  have h3 : M.filter (fun t => !junkTest t) = M :=
    List.filter_eq_self.mpr (fun m hm => by rw [hj m hm]; rfl)
  rw [h3]
  have h4 : ∀ m ∈ M, fixLine m = id m := by
    intro m hm
    obtain ⟨hne, htr, hok, hsp, hns, -⟩ := hfacts m hm
    have hh := headOkB_trimL m
    have hl := lastOkB_trimL m
    rw [htr] at hh hl
    exact fixLine_fix hh hl hok hsp hns
  rw [List.map_congr_left h4, List.map_id]

/-!  ## Lemmas about the repeated-header prefix length.  -/

theorem headerLenL_le (a b : List (List Char)) :
    headerLenL a b ≤ a.length ∧ headerLenL a b ≤ b.length := by
  induction a generalizing b with
  | nil => cases b <;> simp [headerLenL]
  | cons x xs ih =>
    cases b with
    | nil => simp [headerLenL]
    | cons y ys =>
      unfold headerLenL
      split_ifs with h
      · have := ih ys
        exact ⟨by simpa [Nat.succ_le_succ_iff] using this.1,
          by simpa [Nat.succ_le_succ_iff] using this.2⟩
      · simp

theorem take_headerLenL (a b : List (List Char)) :
    a.take (headerLenL a b) = b.take (headerLenL a b) := by
  induction a generalizing b with
  | nil => cases b <;> simp [headerLenL]
  | cons x xs ih =>
    cases b with
    | nil => simp [headerLenL]
    | cons y ys =>
      unfold headerLenL
      split_ifs with h
      · subst h; simpa using ih ys
      · simp

/-!  ## Lemmas about the reassembler state machine.  -/

theorem runEvents_inv (es : List PdfEvent) :
    (runEvents es).lastY = none → (runEvents es).currentPage = [] := by
  suffices h : ∀ (st : ReState),
      (st.lastY = none → st.currentPage = []) →
      ((es.foldl applyEvent st).lastY = none →
        (es.foldl applyEvent st).currentPage = []) by
    exact h initState (fun _ => rfl)
  induction es with
  | nil => intro st hst; exact hst
  | cons e es ih =>
    intro st hst
    rw [List.foldl_cons]
    apply ih
    cases e with
    | page => intro _; rfl
    | frag y t => intro h; simp [applyEvent, applyFrag] at h

theorem startsNewLine_iff (st : ReState)
    (hinv : st.lastY = none → st.currentPage = []) (y : ℚ) (txt : List Char) :
    startsNewLine st y txt ↔
      st.lastY = none ∨
      (∃ p : Int, st.lastY = some p ∧ 4 < (quantY y - p).natAbs) ∨
      st.currentPage.getLastD [] = [] := by
  unfold startsNewLine applyFrag
  rcases hY : st.lastY with _ | p
  · have hcp := hinv hY
    apply iff_of_true
    · simp [hcp]
    · exact Or.inl rfl
  · simp only [hY]
    by_cases hd : 4 < (quantY y - p).natAbs
    · apply iff_of_true
      · simp only [if_pos hd, List.getLastD_concat, if_pos]
        simp
      · exact Or.inr (Or.inl ⟨p, rfl, hd⟩)
    · rw [if_neg hd]
      by_cases he : st.currentPage.getLastD [] = []
      · apply iff_of_true
        · rw [if_pos he]; simp
        · exact Or.inr (Or.inr he)
      · apply iff_of_false
        · rw [if_neg he]
          have hne : st.currentPage ≠ [] := by
            intro hcon; rw [hcon] at he; exact he rfl
          have hlen : 1 ≤ st.currentPage.length :=
            Nat.one_le_iff_ne_zero.mpr (by simpa using hne)
          simp only [List.length_append, List.length_dropLast,
            List.length_cons, List.length_nil]
          omega
        · rintro (hnone | ⟨p', hp', hd'⟩ | he')
          · exact absurd hnone (by simp)
          · rw [Option.some_inj] at hp'
            exact hd (hp' ▸ hd')
          · exact he he'

theorem applyFrag_append (st : ReState) (y : ℚ) (txt : List Char)
    {p : Int} (hp : st.lastY = some p) (hd : ¬ 4 < (quantY y - p).natAbs)
    (he : st.currentPage.getLastD [] ≠ []) :
    (applyFrag st y txt).currentPage =
      st.currentPage.dropLast ++
        [st.currentPage.getLastD [] ++ ' ' :: trimL txt] := by
  simp only [applyFrag, hp]
  rw [if_neg hd, if_neg he]

theorem quantY_zero : quantY 0 = 0 := by norm_num [quantY, Rat.floor]

theorem quantY_one : quantY 1 = 10 := by norm_num [quantY, Rat.floor]

/-!  ## Claim theorems.  -/

/-- C1 (amended): on every event stream, a fragment starts a new line
exactly when the page has no preceding fragment (`lastY` is unset), or
its quantized vertical coordinate differs from the previous fragment's
by more than 4 units, or the current line buffer is the empty string
(which happens when the preceding fragment's text trimmed to nothing);
otherwise its trimmed text is appended to the current line joined by a
single space; and the stored vertical position is reset on every
page-boundary event. -/
theorem C1_newline_rule :
    (∀ (es : List PdfEvent) (y : ℚ) (txt : List Char),
      startsNewLine (runEvents es) y txt ↔
        (runEvents es).lastY = none ∨
        (∃ p : Int, (runEvents es).lastY = some p ∧
          4 < (quantY y - p).natAbs) ∨
        (runEvents es).currentPage.getLastD [] = []) ∧
    (∀ (es : List PdfEvent) (y : ℚ) (txt : List Char),
      ¬ startsNewLine (runEvents es) y txt →
        (applyFrag (runEvents es) y txt).currentPage =
          (runEvents es).currentPage.dropLast ++
            [(runEvents es).currentPage.getLastD [] ++ ' ' :: trimL txt]) ∧
    (∀ st : ReState, (applyEvent st .page).lastY = none) := by
  refine ⟨?_, ?_, ?_⟩
  · intro es y txt
    exact startsNewLine_iff _ (runEvents_inv es) y txt
  · intro es y txt hns
    rw [startsNewLine_iff _ (runEvents_inv es) y txt] at hns
    push_neg at hns
    obtain ⟨h1, h2, h3⟩ := hns
    rcases hY : (runEvents es).lastY with _ | p
    · exact absurd hY h1
    · exact applyFrag_append _ y txt hY (not_lt.mpr (h2 p hY)) h3
  · intro st; rfl

/-- C1 witness: a concrete append step through the amended rule: after
the fragment `"a"` at `y = 1`, the fragment `"b"` at the same height is
space-joined onto the same line. -/
theorem C1_witness :
    (applyFrag (runEvents [PdfEvent.page, .frag 1 "a".data]) 1
      "b".data).currentPage = ["a b".data] := by
  have hns : ¬ startsNewLine (runEvents [PdfEvent.page, .frag 1 "a".data])
      1 "b".data := by
    simp only [startsNewLine, runEvents, List.foldl_cons, List.foldl_nil,
      applyEvent, applyFrag, applyPage, initState, quantY_one]
    decide
  have h := C1_newline_rule.2.1 [PdfEvent.page, .frag 1 "a".data] 1
    "b".data hns
  rw [h]
  simp only [runEvents, List.foldl_cons, List.foldl_nil, applyEvent,
    applyFrag, applyPage, initState, quantY_one]
  decide

/-- C1 counterexample: after a fragment whose text trims to the empty
string, the next fragment starts a new line even though the page has a
preceding fragment (`lastY` is set) and the quantized coordinates agree
— the claim's "exactly when" condition is violated. -/
theorem C1_counterexample :
    startsNewLine (runEvents [PdfEvent.page, .frag 1 " ".data]) 1
        "b".data ∧
      (runEvents [PdfEvent.page, .frag 1 " ".data]).lastY = some 10 ∧
      (quantY 1 - 10).natAbs ≤ 4 := by
  refine ⟨?_, ?_, ?_⟩
  · simp only [startsNewLine, runEvents, List.foldl_cons, List.foldl_nil,
      applyEvent, applyFrag, applyPage, initState, quantY_one]
    decide
  · simp only [runEvents, List.foldl_cons, List.foldl_nil, applyEvent,
      applyFrag, applyPage, initState, quantY_one]
  · rw [quantY_one]; decide

/-- C2: under the BOUNDED-range rule of the system prompt, a value is
OUT_OF_RANGE exactly when it is strictly below the lower bound or
strictly above the upper bound; boundary values classify IN_RANGE. -/
theorem C2_bounded_classification (lower upper v : ℚ) :
    (classifyBounded lower upper v = .outOfRange ↔ v < lower ∨ upper < v) ∧
    (classifyBounded lower upper v = .inRange ↔ lower ≤ v ∧ v ≤ upper) ∧
    (lower ≤ upper → classifyBounded lower upper lower = .inRange ∧
      classifyBounded lower upper upper = .inRange) := by
  unfold classifyBounded
  refine ⟨?_, ?_, ?_⟩
  · split_ifs with h1 h2
    · exact iff_of_true rfl (Or.inl h1)
    · exact iff_of_true rfl (Or.inr h2)
    · refine iff_of_false (by simp) ?_
      rintro (h | h)
      · exact h1 h
      · exact h2 h
  · split_ifs with h1 h2
    · refine iff_of_false (by simp) ?_
      rintro ⟨hl, -⟩
      exact absurd h1 (not_lt.mpr hl)
    · refine iff_of_false (by simp) ?_
      rintro ⟨-, hu⟩
      exact absurd h2 (not_lt.mpr hu)
    · exact iff_of_true rfl ⟨not_lt.mp h1, not_lt.mp h2⟩
  · intro hle
    constructor
    · split_ifs with h1 h2
      · exact absurd h1 (lt_irrefl lower)
      · exact absurd h2 (not_lt.mpr hle)
      · rfl
    · split_ifs with h1 h2
      · exact absurd h1 (not_lt.mpr hle)
      · exact absurd h2 (lt_irrefl upper)
      · rfl

/-- C2 witness: concrete classifications around the range `[1, 3]`:
`0` and `4` are out of range, the boundary values `1` and `3` are in
range. -/
theorem C2_witness :
    classifyBounded 1 3 0 = .outOfRange ∧
      classifyBounded 1 3 1 = .inRange ∧
      classifyBounded 1 3 3 = .inRange ∧
      classifyBounded 1 3 4 = .outOfRange :=
  ⟨(C2_bounded_classification 1 3 0).1.mpr (Or.inl (by norm_num)),
    ((C2_bounded_classification 1 3 1).2.2 (by norm_num)).1,
    ((C2_bounded_classification 1 3 3).2.2 (by norm_num)).2,
    (C2_bounded_classification 1 3 4).1.mpr (Or.inr (by norm_num))⟩

/-- C3 (amended): the pattern-based variant `cleanLabText` keeps its
input lines in their relative order and never merges two distinct input
lines: its output line list is a `filterMap` of the input line list, so
each output line arises from exactly one input line by a per-line
transformation.  (The positional variant does not share this property;
see the counterexample.) -/
theorem C3_cleanLabText_linewise (s : String) :
    cleanLabLinesL s.data = (splitCh '\n' s.data).filterMap
      (fun t =>
        if 0 < (trimL t).length ∧ junkTest (trimL t) = false then
          some (fixLine (trimL t))
        else none) := by
  unfold cleanLabLinesL survivors
  generalize splitCh '\n' s.data = L
  induction L with
  | nil => rfl
  | cons t L ih =>
    simp only [List.map_cons, List.filterMap_cons]
    by_cases h1 : 0 < (trimL t).length
    · by_cases h2 : junkTest (trimL t) = false
      · rw [List.filter_cons_of_pos (by exact decide_eq_true h1),
          List.filter_cons_of_pos (by simp [h2]),
          List.map_cons, if_pos ⟨h1, h2⟩, ih]
      · rw [List.filter_cons_of_pos (by exact decide_eq_true h1),
          List.filter_cons_of_neg (by simpa using h2),
          if_neg (fun hc => h2 hc.2), ih]
    · rw [List.filter_cons_of_neg (by simpa using h1),
        if_neg (fun hc => h1 hc.1), ih]

/-- C3 counterexample: the positional variant merges lines.  On the
two-page document whose first page holds the two lines `"a"` and `"b"`,
`removeRepeatingHeaders` produces the single merged line `"a b"`, which
equals no input line. -/
theorem C3_counterexample :
    splitCh '\n' (removeRepeatingHeaders ["a\nb".data, "x y".data]) =
      ["a b".data, [], [], [], [], [], "x y".data] ∧
      splitCh '\n' "a\nb".data = ["a".data, "b".data] ∧
      "a b".data ≠ "a".data ∧ "a b".data ≠ "b".data ∧
      "a b".data ≠ "x y".data := by decide

/-- C4 (amended): with fewer than 10 common leading tokens between the
first two pages, the repeated-header stage removes no tokens from any
page; with at least 10, every page except the first loses its first
`headerLength` tokens — for the second page these are exactly the
common prefix tokens, while later pages lose their leading tokens
whether or not they match the prefix. -/
theorem C4_header_threshold (p0 p1 : List Char) (rest : List (List Char)) :
    (headerOf p0 p1 < 10 →
      stage1Tokens (p0 :: p1 :: rest) = (p0 :: p1 :: rest).map splitWsL) ∧
    (10 ≤ headerOf p0 p1 →
      stage1Tokens (p0 :: p1 :: rest) =
        splitWsL p0 :: (splitWsL p1).drop (headerOf p0 p1) ::
          rest.map (fun p => (splitWsL p).drop (headerOf p0 p1)) ∧
      (splitWsL p1).take (headerOf p0 p1) =
        (splitWsL p0).take (headerOf p0 p1)) := by
  constructor
  · intro h
    have h' : ¬ 10 ≤ headerOf p0 p1 := by omega
    unfold stage1Tokens
    simp [h']
  · intro h
    constructor
    · unfold stage1Tokens
      simp [h]
    · have h2 := (headerLenL_le ((splitWsL p0).take 100)
        ((splitWsL p1).take 100)).1
      have hle : headerOf p0 p1 ≤ 100 :=
        le_trans h2 (List.length_take_le 100 (splitWsL p0))
      have e1 : (splitWsL p1).take (headerOf p0 p1) =
          ((splitWsL p1).take 100).take (headerOf p0 p1) := by
        rw [List.take_take, min_eq_left hle]
      have e0 : (splitWsL p0).take (headerOf p0 p1) =
          ((splitWsL p0).take 100).take (headerOf p0 p1) := by
        rw [List.take_take, min_eq_left hle]
      rw [e1, e0]
      exact (take_headerLenL _ _).symm

/-- C4 witness: on the concrete three-page document, the second and
third pages lose their first ten tokens, and the tokens removed from
the second page are exactly the common prefix tokens. -/
theorem C4_witness :
    stage1Tokens [pageA, pageB, pageC] =
      splitWsL pageA :: (splitWsL pageB).drop (headerOf pageA pageB) ::
        [pageC].map (fun p => (splitWsL p).drop (headerOf pageA pageB)) ∧
      (splitWsL pageB).take (headerOf pageA pageB) =
        (splitWsL pageA).take (headerOf pageA pageB) :=
  (C4_header_threshold pageA pageB [pageC]).2 (by decide)

/-- C4 counterexample: on a three-page document whose third page
`"b c"` shares nothing with the ten-token header, the code still drops
that page's first ten tokens, leaving it empty — the removed tokens are
not the prefix tokens, which do not occur on that page at all. -/
theorem C4_counterexample :
    10 ≤ headerOf pageA pageB ∧
      stage1 [pageA, pageB, pageC] = [pageA, "Y".data, []] ∧
      pageC = "b c".data ∧
      "b".data ∉ splitWsL pageA ∧ "c".data ∉ splitWsL pageA ∧
      ([] : List Char) ≠ "b c".data := by decide

/-- C5 (amended): `cleanLabText` is idempotent on every input whose
cleaned lines do not match a junk pattern after the character
substitutions; the second pass can only differ by its junk filter
dropping such a line (see the counterexample). -/
theorem C5_conditional_idempotence (s : String)
    (hj : ∀ m ∈ cleanLabLinesL s.data, junkTest m = false) :
    cleanLabText (cleanLabText s) = cleanLabText s := by
  suffices h : cleanLabTextL (cleanLabTextL s.data) = cleanLabTextL s.data by
    show (⟨cleanLabTextL (cleanLabText s).data⟩ : String) =
      ⟨cleanLabTextL s.data⟩
    exact congrArg String.mk h
  by_cases hnil : cleanLabLinesL s.data = []
  · show cleanLabTextL (joinCh '\n' (cleanLabLinesL s.data)) =
      joinCh '\n' (cleanLabLinesL s.data)
    rw [hnil]
    decide
  · unfold cleanLabTextL
    congr 1
    exact cleanLabLinesL_self (fun m hm => cleanLab_line_facts hm) hj hnil

/-- C5 witness: on the plain input `"abc"` no cleaned line is junk, and
running the filter twice equals running it once. -/
theorem C5_witness :
    cleanLabText (cleanLabText "abc") = cleanLabText "abc" :=
  C5_conditional_idempotence "abc" (by decide)

/-- C5 counterexample: the input line `"Page O1"` survives the junk
filter (the letter `O` is not a digit), but the substitution turns it
into `"Page 01"`, which the second pass's junk filter deletes — so
running the filter twice differs from running it once. -/
theorem C5_counterexample :
    cleanLabText "Page O1" = "Page 01" ∧
      cleanLabText (cleanLabText "Page O1") = "" ∧
      cleanLabText (cleanLabText "Page O1") ≠ cleanLabText "Page O1" := by
  decide

/-- C6 (code bug): on a one-page document with two reconstructed lines,
the blank-line markers inside a page collide with the `"\n\n"` page
separator, so `extractTextFromPdf` reports 2 pages although the stream
contains one page boundary and the internal page list holds one entry. -/
theorem C6_page_count_bug :
    reportedPages [PdfEvent.page, .frag 0 "a".data, .frag 1 "b".data] = 2 ∧
      (finalPages [PdfEvent.page, .frag 0 "a".data,
        .frag 1 "b".data]).length = 1 ∧
      List.countP isPageEvent
        [PdfEvent.page, .frag 0 "a".data, .frag 1 "b".data] = 1 := by
  refine ⟨?_, ?_, ?_⟩
  · simp only [reportedPages, rawTextOf, finalPages, runEvents,
      List.foldl_cons, List.foldl_nil, applyEvent, applyFrag, applyPage,
      initState, quantY_zero, quantY_one]
    decide
  · simp only [finalPages, runEvents, List.foldl_cons, List.foldl_nil,
      applyEvent, applyFrag, applyPage, initState, quantY_zero, quantY_one]
    decide
  · decide


/-- C7: every line that survives the junk filter of `cleanLabText` has
every occurrence of the uppercase letter `O` and the lowercase letter
`l` replaced (by `0` and `1`), unconditionally across the whole line:
no output line contains either character anywhere. -/
theorem C7_substitution (s : String) (l : List Char)
    (h : l ∈ cleanLabLinesL s.data) :
    l.all (fun c => !(c == 'O') && !(c == 'l')) = true := by
  rw [List.all_eq_true]
  intro c hc
  have hf := (cleanLab_line_facts h).2.2.2.2.1 c hc
  simp [hf.1, hf.2]

/-- C7 witness: the all-letters test name `"HELLO WORLD"` comes out as
`"HELL0 W0RLD"`, with no `O` left even in alphabetic text. -/
theorem C7_witness :
    ("HELL0 W0RLD".data).all (fun c => !(c == 'O') && !(c == 'l')) = true :=
  C7_substitution "HELLO WORLD" "HELL0 W0RLD".data (by decide)

/-- C8: when a PDF is uploaded and the extracted text is empty or
shorter than 50 characters, the analyze endpoint answers HTTP 400 with
the message `Extracted text too short or empty` and never reaches the
analysis stage. -/
theorem C8_short_text_rejected (t : String)
    (h : t = "" ∨ t.length < 50) (b : Option String) :
    analyzeGate (some t) b =
        .clientError 400 "Extracted text too short or empty" ∧
      ∀ a : String, analyzeGate (some t) b ≠ .proceed a := by
  unfold analyzeGate
  rcases h with h | h <;> simp [h]

/-- C8 witness: the empty extraction is rejected with HTTP 400 and no
analysis outcome. -/
theorem C8_witness :
    analyzeGate (some "") none =
        .clientError 400 "Extracted text too short or empty" ∧
      ∀ a : String, analyzeGate (some "") none ≠ .proceed a :=
  C8_short_text_rejected "" (Or.inl rfl) none

/-- C9: a document with fewer than two pages passes through
`removeRepeatingHeaders` joined unchanged, before either the
repeated-prefix removal or the pattern removal runs; in particular a
single-page document is returned verbatim. -/
theorem C9_single_page_passthrough (pages : List (List Char))
    (h : pages.length < 2) :
    removeRepeatingHeaders pages = joinSep "\n\n".data pages ∧
      ∀ p : List Char, removeRepeatingHeaders [p] = p := by
  constructor
  · unfold removeRepeatingHeaders
    rw [if_pos h]
  · intro p; rfl

/-- C9 witness: a single page consisting only of boilerplate that the
pattern filter would strip is returned untouched. -/
theorem C9_witness :
    removeRepeatingHeaders ["Tél : 0123".data] = "Tél : 0123".data :=
  (C9_single_page_passthrough ["Tél : 0123".data] (by decide)).2
    "Tél : 0123".data

/-- C10: every output line of `cleanLabText` is non-empty, carries no
leading or trailing whitespace, and contains no two adjacent whitespace
characters. -/
theorem C10_output_lines_clean (s : String) (l : List Char)
    (h : l ∈ cleanLabLinesL s.data) :
    l ≠ [] ∧ trimL l = l ∧ okSpacing l = true :=
  ⟨(cleanLab_line_facts h).1, (cleanLab_line_facts h).2.1,
    (cleanLab_line_facts h).2.2.1⟩

/-- C10 witness: the doubled interior spaces of `"a  b"` collapse to a
single space and the resulting line is clean. -/
theorem C10_witness :
    "a b".data ≠ [] ∧ trimL "a b".data = "a b".data ∧
      okSpacing "a b".data = true :=
  C10_output_lines_clean "a  b" "a b".data (by decide)

end LabPipe
